import Mathlib

/-!
Shallow embedding of the `vmcircbuffer` crate: a single-producer /
single-consumer circular buffer built on a double-mapped ("magic ring
buffer") memory region.

Source files embedded:
  * `src/rounding.rs`     — `round_up_to_multiple`
  * `src/shared_mem.rs`   — `SharedMemory::new`, `Drop for SharedMemory`
  * `src/vmcircbuffer.rs` — `Position`, `Writer`, `Reader`, `new`

Machine integers (`usize`) are modelled as natural numbers reduced
modulo `2 ^ w`, where `w` is the native word width (a parameter).
Rust assertions and panics are modelled by `Option`/`none` (the `none`
branch is the program aborting).  The double mapping is modelled by
letting every virtual address `a` in the doubled range alias physical
cell `a % capacity` of the backing store.
-/

namespace VMCirc

/-- Rust `usize` wrapping addition at word width `w`: `a.wrapping_add(b)`. -/
def wadd (w a b : Nat) : Nat := (a + b) % 2 ^ w

/-- Rust `usize` wrapping subtraction at word width `w`: `a.wrapping_sub(b)`. -/
def wsub (w a b : Nat) : Nat := (a + (2 ^ w - b % 2 ^ w)) % 2 ^ w

/-- Rust `usize::is_power_of_two`: exactly one bit set. -/
def is_power_of_two (n : Nat) : Bool := n != 0 && (n &&& (n - 1) == 0)

/-- Doubling loop behind `next_power_of_two`: keep doubling `power` until it
reaches `target`; `fuel` bounds the recursion. -/
def npt_go (target : Nat) : Nat → Nat → Nat
  | power, 0 => power
  | power, fuel + 1 => if target ≤ power then power else npt_go target (power * 2) fuel

/-- Rust `usize::next_power_of_two`: the smallest power of two that is
greater than or equal to `self` (`0` and `1` both map to `1`). -/
def next_power_of_two (n : Nat) : Nat := npt_go n 1 n

/-- From `src/rounding.rs`: `*self + multiple - 1 - (*self - 1) % multiple`.
Faithful for `1 ≤ self` (for `self = 0` the Rust code underflows). -/
def round_up_to_multiple (s multiple : Nat) : Nat :=
  s + multiple - 1 - (s - 1) % multiple

/-- From `src/vmcircbuffer.rs`: the cursor/capacity bookkeeping `struct Position`. -/
structure Position where
  write : Nat
  read : Nat
  capacity : Nat
deriving Repr, DecidableEq

namespace Position

/-- Rust `Position::new`: asserts the capacity is a power of two, cursors start at 0.
`none` models the assertion failure. -/
def new (capacity : Nat) : Option Position :=
  if is_power_of_two capacity then some ⟨0, 0, capacity⟩ else none

/-- Rust `Position::write_len`: `capacity.wrapping_sub(write.wrapping_sub(read))`. -/
def write_len (w : Nat) (p : Position) : Nat :=
  wsub w p.capacity (wsub w p.write p.read)

/-- Rust `Position::read_len`: `write.wrapping_sub(read)`. -/
def read_len (w : Nat) (p : Position) : Nat :=
  wsub w p.write p.read

/-- Rust `Position::write_offset`: `write & (capacity - 1)`. -/
def write_offset (p : Position) : Nat := p.write &&& (p.capacity - 1)

/-- Rust `Position::read_offset`: `read & (capacity - 1)`. -/
def read_offset (p : Position) : Nat := p.read &&& (p.capacity - 1)

/-- Rust `Position::write_offset_len`. -/
def write_offset_len (w : Nat) (p : Position) : Nat × Nat :=
  (p.write_offset, p.write_len w)

/-- Rust `Position::read_offset_len`. -/
def read_offset_len (w : Nat) (p : Position) : Nat × Nat :=
  (p.read_offset, p.read_len w)

/-- Rust `Position::produce`: `assert!(amount <= write_len())`, then
`write = write.wrapping_add(amount)`.  `none` models the assertion failing. -/
def produce (w : Nat) (p : Position) (amount : Nat) : Option Position :=
  if amount ≤ p.write_len w then
    some { p with write := wadd w p.write amount }
  else none

/-- Rust `Position::consume`: `assert!(amount <= read_len())`, then
`read = read.wrapping_add(amount)`.  `none` models the assertion failing. -/
def consume (w : Nat) (p : Position) (amount : Nat) : Option Position :=
  if amount ≤ p.read_len w then
    some { p with read := wadd w p.read amount }
  else none

end Position

/-- Physical write through the doubled mapping: virtual address `a` of the
`2 * cap` range aliases physical cell `a % cap`. -/
def virtWrite (cap : Nat) (mem : List T) (a : Nat) (x : T) : List T :=
  mem.set (a % cap) x

/-- Physical read through the doubled mapping. -/
def virtRead [Inhabited T] (cap : Nat) (mem : List T) (a : Nat) : T :=
  mem.getD (a % cap) default

/-- Copy a sequence of elements to consecutive virtual addresses starting at
`off` (the `copy_from_slice` into a window of the doubled mapping). -/
def memWriteSeq (cap : Nat) : List T → Nat → List T → List T
  | mem, _, [] => mem
  | mem, off, x :: xs => memWriteSeq cap (virtWrite cap mem off x) (off + 1) xs

/-- Read `n` consecutive virtual addresses starting at `off`. -/
def memReadSeq [Inhabited T] (cap : Nat) (mem : List T) (off n : Nat) : List T :=
  (List.range n).map fun i => virtRead cap mem (off + i)

/-- The shared state of a channel: the cursor bookkeeping plus the physical
backing store (`capacity` cells, aliased twice by the virtual mapping). -/
structure Channel (T : Type) where
  pos : Position
  mem : List T
deriving Repr, DecidableEq

namespace Writer

/-- Rust `Writer::produce`: locks, calls `Position::produce`, notifies the reader. -/
def produce [Inhabited T] (w : Nat) (c : Channel T) (amount : Nat) :
    Option (Channel T) :=
  (c.pos.produce w amount).map fun p => { c with pos := p }

/-- Rust `Writer::write`: `copy_len = write_len.min(buf.len())`, copy the first
`copy_len` elements of `buf` into the window at `write_offset`, then
`produce(copy_len)`; returns `Ok(copy_len)`. -/
def write [Inhabited T] (w : Nat) (c : Channel T) (buf : List T) :
    Option (Channel T × Nat) :=
  let off := c.pos.write_offset
  let wl := c.pos.write_len w
  let copy_len := min wl buf.length
  let mem1 := memWriteSeq c.pos.capacity c.mem off (buf.take copy_len)
  (c.pos.produce w copy_len).map fun p => (⟨p, mem1⟩, copy_len)

end Writer

namespace Reader

/-- Rust `Reader::consume`: locks, calls `Position::consume`, notifies the writer. -/
def consume [Inhabited T] (w : Nat) (c : Channel T) (amount : Nat) :
    Option (Channel T) :=
  (c.pos.consume w amount).map fun p => { c with pos := p }

/-- Rust `Reader::read`: `copy_len = read_len.min(buf.len())`, copy `copy_len`
elements from the window at `read_offset` into the front of `buf`, then
`consume(copy_len)`; returns the new channel state, the caller's buffer
after the copy, and `Ok(copy_len)`. -/
def read [Inhabited T] (w : Nat) (c : Channel T) (buf : List T) :
    Option (Channel T × List T × Nat) :=
  let off := c.pos.read_offset
  let rl := c.pos.read_len w
  let copy_len := min rl buf.length
  let out := memReadSeq c.pos.capacity c.mem off copy_len ++ buf.drop copy_len
  (c.pos.consume w copy_len).map fun p => (⟨p, c.mem⟩, out, copy_len)

/-- Rust `Reader::read_exact`: waits on the condition variable until
`read_len() ≥ buf.len()` (re-checked on every wake), then behaves as `read`.
In the sequential model, being blocked is `none`. -/
def read_exact [Inhabited T] (w : Nat) (c : Channel T) (buf : List T) :
    Option (Channel T × List T × Nat) :=
  if buf.length ≤ c.pos.read_len w then read w c buf else none

end Reader

/-- One client operation on a channel. -/
inductive Op (T : Type) where
  | produce (n : Nat)
  | consume (n : Nat)
  | write (buf : List T)
  | read (n : Nat)
deriving Repr

/-- Apply one operation; `none` when the operation panics. -/
def Channel.step [Inhabited T] (w : Nat) (c : Channel T) : Op T → Option (Channel T)
  | .produce n => Writer.produce w c n
  | .consume n => Reader.consume w c n
  | .write buf => (Writer.write w c buf).map Prod.fst
  | .read n => (Reader.read w c (List.replicate n default)).map fun r => r.1

/-- The state created by `new`: zero cursors, zero-initialised backing store
(the mapping is anonymous zero-filled memory). -/
def Channel.init (T : Type) [Inhabited T] (cap : Nat) : Channel T :=
  ⟨⟨0, 0, cap⟩, List.replicate cap default⟩

/-- Run a sequence of operations. -/
def Channel.run [Inhabited T] (w : Nat) (c : Channel T) : List (Op T) → Option (Channel T)
  | [] => some c
  | op :: ops => (c.step w op).bind fun c1 => Channel.run w c1 ops

/-- The invariant maintained by every channel operation: the capacity is
fixed, cursors are reduced native words, at most `cap` elements are
readable, and the physical store has exactly `cap` cells. -/
def Inv (w cap : Nat) {T : Type} (c : Channel T) : Prop :=
  c.pos.capacity = cap ∧ c.pos.write < 2 ^ w ∧ c.pos.read < 2 ^ w ∧
  c.pos.read_len w ≤ cap ∧ c.mem.length = cap

/-- From `src/shared_mem.rs`: the host allocation capability.  `pagesize`
models `pagesize()`; `doublemap_ok s` tells whether `doublemap(s)` returns a
non-null pointer. -/
structure HostEnv where
  pagesize : Nat
  doublemap_ok : Nat → Bool

/-- Rust `shared_mem::Error`: the only error kind is `Allocate`. -/
inductive MemError where
  | allocate (msg : String)
deriving Repr, DecidableEq

/-- The model of a `SharedMemory<T>` value: its element count and the
page-rounded byte size that `doublemap` reserved (doubled virtually). -/
structure SharedMemoryModel where
  len : Nat
  mapped_size : Nat
deriving Repr, DecidableEq

namespace SharedMemory

/-- Rust `SharedMemory::new`: `requested_size = len * size_of::<T>()`,
`required_size = requested_size.round_up_to_multiple(page_size)`,
`doublemap(required_size)`; null pointer becomes `Error::Allocate`. -/
def new (env : HostEnv) (elemSize len : Nat) :
    Except MemError SharedMemoryModel :=
  let requested_size := len * elemSize
  let required_size := round_up_to_multiple requested_size env.pagesize
  if env.doublemap_ok required_size then
    .ok ⟨len, required_size⟩
  else
    .error (.allocate "doublemap() returned null pointer")

/-- Rust `Drop for SharedMemory`: the byte count passed to `doublemunlock` is
`self.len * size_of::<T>()` — the unrounded requested size. -/
def drop_size (elemSize : Nat) (shm : SharedMemoryModel) : Nat :=
  shm.len * elemSize

end SharedMemory

/-- Outcome of channel construction: either a connected channel state or a
panic (the `.unwrap()` in `new` aborting). -/
inductive NewResult (T : Type) where
  | ok (c : Channel T)
  | panicked
deriving Repr, DecidableEq

/-- Rust `vmcircbuffer::new<T>(capacity)`: round the capacity up to the next power
of two, allocate the shared memory (`.unwrap()` panics on failure), create the
`Position` (its power-of-two assertion), and hand out the connected pair.
The shared channel state stands for the `Writer`/`Reader` pair. -/
def vmnew (T : Type) [Inhabited T] (env : HostEnv) (elemSize capacity : Nat) :
    NewResult T :=
  let pow_two_cap := next_power_of_two capacity
  match SharedMemory.new env elemSize pow_two_cap with
  | .error _ => .panicked
  | .ok _ =>
    match Position.new pow_two_cap with
    | none => .panicked
    | some p => .ok ⟨p, List.replicate pow_two_cap default⟩

/-! ## Arithmetic facts about the wrapping operations -/

theorem wadd_lt (w a b : Nat) : wadd w a b < 2 ^ w :=
  Nat.mod_lt _ (Nat.two_pow_pos w)

theorem wsub_lt (w a b : Nat) : wsub w a b < 2 ^ w :=
  Nat.mod_lt _ (Nat.two_pow_pos w)

/-- Wrapping subtraction undoes addition modulo the word size. -/
theorem wsub_add_mod (w a b : Nat) : (wsub w a b + b) % 2 ^ w = a % 2 ^ w := by
  have hN : 0 < 2 ^ w := Nat.two_pow_pos w
  have hble : b % 2 ^ w ≤ 2 ^ w := (Nat.mod_lt _ hN).le
  have hmod : b % 2 ^ w ≤ b := Nat.mod_le b _
  unfold wsub
  rw [Nat.mod_add_mod]
  have h1 : a + (2 ^ w - b % 2 ^ w) + b = a + (b - b % 2 ^ w) + 2 ^ w := by omega
  obtain ⟨q, hq⟩ : 2 ^ w ∣ b - b % 2 ^ w := Nat.dvd_sub_mod b
  rw [h1, Nat.add_mod_right, hq, Nat.add_mul_mod_self_left]

/-- Value `wsub w a b` is the unique value below `2 ^ w` that adds back to `a`. -/
theorem wsub_unique (w a b x : Nat) (hx : x < 2 ^ w)
    (h : (x + b) % 2 ^ w = a % 2 ^ w) : wsub w a b = x := by
  have h2 := wsub_add_mod w a b
  have h3 : wsub w a b + b ≡ x + b [MOD 2 ^ w] := h2.trans h.symm
  have h4 : wsub w a b ≡ x [MOD 2 ^ w] := Nat.ModEq.add_right_cancel' b h3
  have h5 : wsub w a b % 2 ^ w = x % 2 ^ w := h4
  rwa [Nat.mod_eq_of_lt (wsub_lt w a b), Nat.mod_eq_of_lt hx] at h5

/-- Below the word size, wrapping subtraction is ordinary subtraction. -/
theorem wsub_eq_sub (w a b : Nat) (hba : b ≤ a) (ha : a < 2 ^ w) :
    wsub w a b = a - b :=
  wsub_unique w a b (a - b) (lt_of_le_of_lt (Nat.sub_le a b) ha)
    (by rw [Nat.sub_add_cancel hba])

theorem wsub_zero_right (w a : Nat) : wsub w a 0 = a % 2 ^ w :=
  wsub_unique w a 0 (a % 2 ^ w) (Nat.mod_lt _ (Nat.two_pow_pos w))
    (by rw [Nat.add_zero, Nat.mod_mod_of_dvd _ dvd_rfl])

/-- Advancing the minuend advances the wrapping difference. -/
theorem wsub_wadd_left (w a b n : Nat) :
    wsub w (wadd w a n) b = (wsub w a b + n) % 2 ^ w := by
  apply wsub_unique
  · exact Nat.mod_lt _ (Nat.two_pow_pos w)
  · have h1 : ((wsub w a b + n) % 2 ^ w + b) % 2 ^ w
        = (wsub w a b + b + n) % 2 ^ w := by
      rw [Nat.mod_add_mod, Nat.add_right_comm]
    rw [h1, ← Nat.mod_add_mod, wsub_add_mod, Nat.mod_add_mod]
    simp only [wadd]
    rw [Nat.mod_mod_of_dvd _ dvd_rfl]

/-- Advancing the subtrahend by at most the difference subtracts exactly. -/
theorem wsub_wadd_right (w a b n : Nat) (h : n ≤ wsub w a b) :
    wsub w a (wadd w b n) = wsub w a b - n := by
  apply wsub_unique
  · exact lt_of_le_of_lt (Nat.sub_le _ _) (wsub_lt w a b)
  · simp only [wadd]
    rw [Nat.add_mod_mod]
    have h2 : wsub w a b - n + (b + n) = wsub w a b - n + n + b := by omega
    rw [h2, Nat.sub_add_cancel h, wsub_add_mod]

/-- A zero wrapping difference of reduced values means equality. -/
theorem wsub_eq_zero (w a b : Nat) (ha : a < 2 ^ w) (hb : b < 2 ^ w)
    (h : wsub w a b = 0) : a = b := by
  have h2 := wsub_add_mod w a b
  rw [h, Nat.zero_add, Nat.mod_eq_of_lt ha, Nat.mod_eq_of_lt hb] at h2
  exact h2.symm

/-- The bit mask of `capacity - 1` is reduction modulo a power-of-two capacity. -/
theorem mask_eq_mod (x k : Nat) : x &&& (2 ^ k - 1) = x % 2 ^ k :=
  Nat.and_pow_two_sub_one_eq_mod x k

/-! ## State invariant of reachable channel states -/

/-- Writing through the mapping never changes the physical size. -/
theorem length_memWriteSeq (cap : Nat) (mem : List T) (off : Nat) (data : List T) :
    (memWriteSeq cap mem off data).length = mem.length := by
  induction data generalizing mem off with
  | nil => rfl
  | cons x xs ih => simp [memWriteSeq, ih, virtWrite]

theorem write_len_eq_sub (w cap : Nat) (p : Position) (hlt : cap < 2 ^ w)
    (hc : p.capacity = cap) (hrl : p.read_len w ≤ cap) :
    p.write_len w = cap - p.read_len w := by
  unfold Position.write_len
  rw [hc]
  exact wsub_eq_sub w cap _ hrl hlt

theorem read_len_after_produce (w cap n : Nat) (p : Position) (hlt : cap < 2 ^ w)
    (hc : p.capacity = cap) (hrl : p.read_len w ≤ cap) (hn : n ≤ p.write_len w) :
    Position.read_len w { p with write := wadd w p.write n } = p.read_len w + n ∧
    p.read_len w + n ≤ cap := by
  have hwl := write_len_eq_sub w cap p hlt hc hrl
  have hsum : p.read_len w + n ≤ cap := by omega
  constructor
  · show wsub w (wadd w p.write n) p.read = p.read_len w + n
    rw [wsub_wadd_left]
    have hx : wsub w p.write p.read + n ≤ cap := hsum
    exact Nat.mod_eq_of_lt (lt_of_le_of_lt hx hlt)
  · exact hsum

theorem read_len_after_consume (w n : Nat) (p : Position) (hn : n ≤ p.read_len w) :
    Position.read_len w { p with read := wadd w p.read n } = p.read_len w - n := by
  show wsub w p.write (wadd w p.read n) = p.read_len w - n
  exact wsub_wadd_right w p.write p.read n hn

/-- Lemma: `Position::produce` with the minimum transfer count always succeeds. -/
theorem prod_min_eq (w L : Nat) (p : Position) :
    p.produce w (min (p.write_len w) L) =
      some { p with write := wadd w p.write (min (p.write_len w) L) } := by
  unfold Position.produce
  rw [if_pos (Nat.min_le_left _ _)]

/-- Lemma: `Position::consume` with the minimum transfer count always succeeds. -/
theorem cons_min_eq (w L : Nat) (p : Position) :
    p.consume w (min (p.read_len w) L) =
      some { p with read := wadd w p.read (min (p.read_len w) L) } := by
  unfold Position.consume
  rw [if_pos (Nat.min_le_left _ _)]

/-- Closed form of `Writer::write`: it always succeeds, copies
`min(write_len, buf.len)` elements and advances the write cursor by that. -/
theorem Writer.write_some (w : Nat) [Inhabited T] (c : Channel T) (buf : List T) :
    Writer.write w c buf = some
      (⟨{ c.pos with write := wadd w c.pos.write (min (c.pos.write_len w) buf.length) },
         memWriteSeq c.pos.capacity c.mem c.pos.write_offset
           (buf.take (min (c.pos.write_len w) buf.length))⟩,
       min (c.pos.write_len w) buf.length) := by
  show (c.pos.produce w (min (c.pos.write_len w) buf.length)).map _ = _
  rw [prod_min_eq]
  rfl

/-- Closed form of `Reader::read`: it always succeeds, copies
`min(read_len, buf.len)` elements and advances the read cursor by that. -/
theorem Reader.read_some (w : Nat) [Inhabited T] (c : Channel T) (buf : List T) :
    Reader.read w c buf = some
      (⟨{ c.pos with read := wadd w c.pos.read (min (c.pos.read_len w) buf.length) },
         c.mem⟩,
       memReadSeq c.pos.capacity c.mem c.pos.read_offset
           (min (c.pos.read_len w) buf.length)
         ++ buf.drop (min (c.pos.read_len w) buf.length),
       min (c.pos.read_len w) buf.length) := by
  show (c.pos.consume w (min (c.pos.read_len w) buf.length)).map _ = _
  rw [cons_min_eq]
  rfl

theorem step_inv (w cap : Nat) [Inhabited T] (c c' : Channel T) (op : Op T)
    (hlt : cap < 2 ^ w) (hInv : Inv w cap c) (h : c.step w op = some c') :
    Inv w cap c' := by
  obtain ⟨hc, hw, hr, hrl, hm⟩ := hInv
  cases op with
  | produce n =>
    simp only [Channel.step] at h
    unfold Writer.produce Position.produce at h
    by_cases hn : n ≤ c.pos.write_len w
    · rw [if_pos hn] at h
      injection h with h
      subst h
      obtain ⟨hrl2, hle⟩ := read_len_after_produce w cap n c.pos hlt hc hrl hn
      exact ⟨hc, wadd_lt w _ _, hr, by rw [hrl2]; exact hle, hm⟩
    · rw [if_neg hn] at h
      cases h
  | consume n =>
    simp only [Channel.step] at h
    unfold Reader.consume Position.consume at h
    by_cases hn : n ≤ c.pos.read_len w
    · rw [if_pos hn] at h
      injection h with h
      subst h
      have hrl2 := read_len_after_consume w n c.pos hn
      exact ⟨hc, hw, wadd_lt w _ _, by rw [hrl2]; omega, hm⟩
    · rw [if_neg hn] at h
      cases h
  | write buf =>
    simp only [Channel.step] at h
    rw [Writer.write_some] at h
    injection h with h
    subst h
    obtain ⟨hrl2, hle⟩ := read_len_after_produce w cap
      (min (c.pos.write_len w) buf.length) c.pos hlt hc hrl (Nat.min_le_left _ _)
    refine ⟨hc, wadd_lt w _ _, hr, by rw [hrl2]; exact hle, ?_⟩
    rw [length_memWriteSeq]
    exact hm
  | read n =>
    simp only [Channel.step] at h
    rw [Reader.read_some] at h
    injection h with h
    subst h
    have hrl2 := read_len_after_consume w
      (min (c.pos.read_len w) (List.replicate n (default : T)).length) c.pos
      (Nat.min_le_left _ _)
    exact ⟨hc, hw, wadd_lt w _ _, by rw [hrl2]; omega, hm⟩

theorem init_inv (T : Type) [Inhabited T] (w cap : Nat) :
    Inv w cap (Channel.init T cap) := by
  refine ⟨rfl, Nat.two_pow_pos w, Nat.two_pow_pos w, ?_, List.length_replicate cap _⟩
  show wsub w 0 0 ≤ cap
  rw [wsub_zero_right]
  simp

theorem run_inv (w cap : Nat) [Inhabited T] (ops : List (Op T)) (c c' : Channel T)
    (hlt : cap < 2 ^ w) (hInv : Inv w cap c)
    (h : Channel.run w c ops = some c') : Inv w cap c' := by
  induction ops generalizing c with
  | nil =>
    unfold Channel.run at h
    injection h with h
    subst h
    exact hInv
  | cons op ops ih =>
    unfold Channel.run at h
    cases hs : c.step w op with
    | none => rw [hs] at h; cases h
    | some c1 =>
      rw [hs] at h
      exact ih c1 (step_inv w cap c c1 op hlt hInv hs) h

/-! ## Reading back what was written through the doubled mapping -/

theorem length_memReadSeq [Inhabited T] (cap : Nat) (mem : List T) (off n : Nat) :
    (memReadSeq cap mem off n).length = n := by
  simp [memReadSeq]

/-- Cells outside the addressed window are untouched by `memWriteSeq`. -/
theorem memWriteSeq_getD_untouched [Inhabited T] (cap : Nat) (mem : List T)
    (off : Nat) (data : List T) (j : Nat)
    (hj : ∀ i < data.length, (off + i) % cap ≠ j) :
    (memWriteSeq cap mem off data).getD j default = mem.getD j default := by
  induction data generalizing mem off with
  | nil => rfl
  | cons x xs ih =>
    show (memWriteSeq cap (virtWrite cap mem off x) (off + 1) xs).getD j default
        = mem.getD j default
    have hshift : ∀ i < xs.length, (off + 1 + i) % cap ≠ j := by
      intro i hi
      have h2 : off + 1 + i = off + (i + 1) := by omega
      rw [h2]
      exact hj (i + 1) (by simpa using Nat.succ_lt_succ hi)
    rw [ih (virtWrite cap mem off x) (off + 1) hshift]
    have h0 : off % cap ≠ j := by
      have h3 : (off + 0) % cap ≠ j := hj 0 (by simp)
      simpa using h3
    unfold virtWrite
    rw [List.getD_eq_getElem?_getD, List.getElem?_set_ne h0,
      ← List.getD_eq_getElem?_getD]

/-- Reading a written window back: each of the `data.length ≤ cap` cells
addressed from `off` holds the element written there, because the
aliased physical indices are pairwise distinct. -/
theorem memWriteSeq_getD_read [Inhabited T] (cap : Nat) (mem : List T)
    (off : Nat) (data : List T) (i : Nat)
    (hcap : data.length ≤ cap) (hmem : cap ≤ mem.length) (hi : i < data.length) :
    (memWriteSeq cap mem off data).getD ((off + i) % cap) default
      = data.getD i default := by
  induction data generalizing mem off i with
  | nil => cases hi
  | cons x xs ih =>
    show (memWriteSeq cap (virtWrite cap mem off x) (off + 1) xs).getD _ default = _
    have hcap0 : 0 < cap := by
      have := hcap
      simp only [List.length_cons] at this
      omega
    cases i with
    | zero =>
      have huntouched : ∀ i2 < xs.length, (off + 1 + i2) % cap ≠ (off + 0) % cap := by
        intro i2 hi2
        simp only [Nat.add_zero]
        intro heq
        have hmodeq : Nat.ModEq cap (off + (1 + i2)) off := by
          have h4 : off + 1 + i2 = off + (1 + i2) := by omega
          rw [h4] at heq
          exact heq
        have hdvd : cap ∣ 1 + i2 := by
          have h5 := (Nat.modEq_iff_dvd' (Nat.le_add_right off (1 + i2))).mp hmodeq.symm
          simpa using h5
        have h6 := Nat.le_of_dvd (by omega) hdvd
        have h7 : xs.length + 1 ≤ cap := by simpa using hcap
        omega
      rw [memWriteSeq_getD_untouched cap _ (off + 1) xs _ huntouched]
      unfold virtWrite
      simp only [Nat.add_zero, List.getD_cons_zero]
      have hlt2 : off % cap < mem.length :=
        lt_of_lt_of_le (Nat.mod_lt off hcap0) hmem
      rw [List.getD_eq_getElem?_getD, List.getElem?_set_self hlt2]
      rfl
    | succ i2 =>
      have h6 : off + (i2 + 1) = off + 1 + i2 := by omega
      rw [h6, List.getD_cons_succ]
      exact ih (virtWrite cap mem off x) (off + 1) i2
        (by simp only [List.length_cons] at hcap; omega)
        (by unfold virtWrite; rw [List.length_set]; exact hmem)
        (by simpa using hi)

/-- Round trip through the doubled mapping: writing `data` at `off` and
reading the same window returns `data`. -/
theorem memReadSeq_memWriteSeq [Inhabited T] (cap : Nat) (mem : List T)
    (off : Nat) (data : List T)
    (hcap : data.length ≤ cap) (hmem : cap ≤ mem.length) :
    memReadSeq cap (memWriteSeq cap mem off data) off data.length = data := by
  apply List.ext_getElem
  · simp [memReadSeq]
  · intro i h1 h2
    have hi : i < data.length := h2
    simp only [memReadSeq, virtRead, List.getElem_map, List.getElem_range]
    rw [memWriteSeq_getD_read cap mem off data i hcap hmem hi]
    exact List.getD_eq_getElem data default hi

/-! ## The next-power-of-two computation -/

theorem npt_go_spec (target fuel power : Nat) (hpow : ∃ k, power = 2 ^ k)
    (hfuel : target ≤ power * 2 ^ fuel) :
    (∃ k, npt_go target power fuel = 2 ^ k) ∧
    target ≤ npt_go target power fuel ∧
    power ≤ npt_go target power fuel ∧
    (∀ m, power ≤ m → target ≤ m → (∃ j, m = 2 ^ j) →
      npt_go target power fuel ≤ m) := by
  induction fuel generalizing power with
  | zero =>
    have h1 : target ≤ power := by simpa using hfuel
    exact ⟨hpow, h1, Nat.le_refl _, fun m hm _ _ => hm⟩
  | succ fuel ih =>
    simp only [npt_go]
    by_cases hle : target ≤ power
    · simp only [if_pos hle]
      exact ⟨hpow, hle, Nat.le_refl _, fun m hm _ _ => hm⟩
    · simp only [if_neg hle]
      obtain ⟨k, hk⟩ := hpow
      have hpow2 : ∃ k2, power * 2 = 2 ^ k2 := ⟨k + 1, by rw [hk]; ring⟩
      have hfuel2 : target ≤ power * 2 * 2 ^ fuel := by
        have : power * 2 ^ (fuel + 1) = power * 2 * 2 ^ fuel := by ring
        rw [← this]
        exact hfuel
      obtain ⟨hp1, hp2, hp3, hp4⟩ := ih (power * 2) hpow2 hfuel2
      refine ⟨hp1, hp2, le_trans (Nat.le_mul_of_pos_right power (by omega)) hp3, ?_⟩
      intro m hm htm ⟨j, hj⟩
      apply hp4 m ?_ htm ⟨j, hj⟩
      have hkj : 2 ^ k < 2 ^ j := by rw [← hk, ← hj]; omega
      have hkj2 : k < j := (Nat.pow_lt_pow_iff_right (by omega)).mp hkj
      have : 2 ^ (k + 1) ≤ 2 ^ j := Nat.pow_le_pow_right (by omega) (by omega)
      rw [hk, hj]
      calc 2 ^ k * 2 = 2 ^ (k + 1) := by ring
      _ ≤ 2 ^ j := this

/-- Function `next_power_of_two n` is the least power of two at least `n`. -/
theorem next_power_of_two_spec (n : Nat) :
    (∃ k, next_power_of_two n = 2 ^ k) ∧ n ≤ next_power_of_two n ∧
    (∀ j, n ≤ 2 ^ j → next_power_of_two n ≤ 2 ^ j) := by
  have hfuel : n ≤ 1 * 2 ^ n := by
    rw [Nat.one_mul]
    exact Nat.le_of_lt (Nat.lt_two_pow n)
  obtain ⟨h1, h2, _, h4⟩ := npt_go_spec n n 1 ⟨0, rfl⟩ hfuel
  refine ⟨h1, h2, fun j hj => ?_⟩
  exact h4 (2 ^ j) (Nat.one_le_two_pow) hj ⟨j, rfl⟩

/-! ## The claims -/

/-- C1: for every sequence of operations each satisfying its precondition,
starting from the initial state `write = read = 0`, at every observation
point `0 ≤ read_len() ≤ capacity` and `read_len() + write_len() = capacity`,
including after the native-width cursors wrap around `2 ^ w`. -/
theorem c1_cursor_invariant {T : Type} [Inhabited T] (w cap : Nat)
    (ops : List (Op T)) (c : Channel T) (hlt : cap < 2 ^ w)
    (h : Channel.run w (Channel.init T cap) ops = some c) :
    c.pos.read_len w ≤ cap ∧ c.pos.read_len w + c.pos.write_len w = cap := by
  obtain ⟨hc, hw, hr, hrl, hm⟩ := run_inv w cap ops _ c hlt (init_inv T w cap) h
  have hwl := write_len_eq_sub w cap c.pos hlt hc hrl
  exact ⟨hrl, by omega⟩

/-- Witness for the invariant theorem at word width 2: the cursors wrap at 4;
two produce/consume rounds of 2 elements take both cursors through the wrap
back to 0. -/
theorem c1_cursor_invariant_witness :
    Position.read_len 2 ⟨0, 0, 2⟩ ≤ 2 ∧
    Position.read_len 2 ⟨0, 0, 2⟩ + Position.write_len 2 ⟨0, 0, 2⟩ = 2 :=
  c1_cursor_invariant (T := Nat) 2 2
    [Op.produce 2, Op.consume 2, Op.produce 2, Op.consume 2]
    ⟨⟨0, 0, 2⟩, [0, 0]⟩ (by decide) (by decide)

/-- C6: `Position::produce n` succeeds exactly when `n ≤ write_len()`, and
then advances the write cursor by exactly `n`; for `n > write_len()` it hits
the assertion (modelled `none`), so under the precondition the failure branch
is unreachable; symmetrically for `consume` against `read_len()`. -/
theorem c6_advance_contract (w n : Nat) (p : Position) :
    (Position.produce w p n = some { p with write := wadd w p.write n }
        ↔ n ≤ p.write_len w) ∧
    (Position.produce w p n = none ↔ p.write_len w < n) ∧
    (Position.consume w p n = some { p with read := wadd w p.read n }
        ↔ n ≤ p.read_len w) ∧
    (Position.consume w p n = none ↔ p.read_len w < n) := by
  unfold Position.produce Position.consume
  by_cases h1 : n ≤ p.write_len w <;> by_cases h2 : n ≤ p.read_len w <;>
    simp [h1, h2] <;> omega

/-- C3: `Writer::write(buf)` copies exactly `min(write_len(), buf.len())`
elements from the front of `buf` into the window starting at
`write_offset()`, advances the write cursor by exactly that count, returns
the count as a success value, and leaves every other cell untouched; the
count never exceeds `write_len()`. -/
theorem c3_write_behaviour {T : Type} [Inhabited T] (w cap : Nat)
    (ops : List (Op T)) (c : Channel T) (buf : List T) (hlt : cap < 2 ^ w)
    (h : Channel.run w (Channel.init T cap) ops = some c) :
    ∃ c1, Writer.write w c buf = some (c1, min (c.pos.write_len w) buf.length) ∧
      min (c.pos.write_len w) buf.length ≤ c.pos.write_len w ∧
      c1.pos.write = wadd w c.pos.write (min (c.pos.write_len w) buf.length) ∧
      c1.pos.read = c.pos.read ∧ c1.pos.capacity = c.pos.capacity ∧
      memReadSeq c.pos.capacity c1.mem c.pos.write_offset
          (min (c.pos.write_len w) buf.length)
        = buf.take (min (c.pos.write_len w) buf.length) ∧
      (∀ j, j < cap →
        (∀ i, i < min (c.pos.write_len w) buf.length →
          (c.pos.write_offset + i) % cap ≠ j) →
        c1.mem.getD j default = c.mem.getD j default) := by
  obtain ⟨hc, hw, hr, hrl, hm⟩ := run_inv w cap ops _ c hlt (init_inv T w cap) h
  have hwl := write_len_eq_sub w cap c.pos hlt hc hrl
  set n := min (c.pos.write_len w) buf.length with hn
  have hlen : (buf.take n).length = n := by
    rw [List.length_take]
    exact Nat.min_eq_left (Nat.min_le_right _ _)
  refine ⟨_, Writer.write_some w c buf, Nat.min_le_left _ _, rfl, rfl, rfl, ?_, ?_⟩
  · have hncap : (buf.take n).length ≤ c.pos.capacity := by
      rw [hlen, hc]
      have := Nat.min_le_left (c.pos.write_len w) buf.length
      omega
    have hmem : c.pos.capacity ≤ c.mem.length := by rw [hc, hm]
    have hrt := memReadSeq_memWriteSeq c.pos.capacity c.mem c.pos.write_offset
      (buf.take n) hncap hmem
    rw [hlen] at hrt
    exact hrt
  · intro j hj hji
    have hcond : ∀ i, i < (buf.take n).length →
        (c.pos.write_offset + i) % c.pos.capacity ≠ j := by
      intro i hi
      rw [hc]
      exact hji i (by rwa [hlen] at hi)
    exact memWriteSeq_getD_untouched c.pos.capacity c.mem c.pos.write_offset
      (buf.take n) j hcond

/-- Witness for the write theorem: fresh capacity-2 channel, three-element
input; two elements are copied, the cursor advances by 2, the third element
stays out, and no cell outside the window changes. -/
theorem c3_write_behaviour_witness :
    ∃ c1, Writer.write 4 (Channel.init Nat 2) [7, 8, 9] = some (c1, 2) ∧
      2 ≤ Position.write_len 4 (Channel.init Nat 2).pos ∧
      c1.pos.write = wadd 4 0 2 ∧ c1.pos.read = 0 ∧ c1.pos.capacity = 2 ∧
      memReadSeq 2 c1.mem 0 2 = [7, 8] ∧
      (∀ j, j < 2 → (∀ i, i < 2 → (0 + i) % 2 ≠ j) →
        c1.mem.getD j default = (Channel.init Nat 2).mem.getD j default) :=
  c3_write_behaviour 4 2 [] (Channel.init Nat 2) [7, 8, 9] (by decide) rfl

/-- C4: `Reader::read(buf)` copies exactly `min(read_len(), buf.len())`
elements from the window starting at `read_offset()` into the front of the
caller's buffer, leaves the rest of the buffer and the store unchanged,
advances the read cursor by exactly the count, and returns it; with nothing
readable the count is 0, and the count never exceeds `read_len()`. -/
theorem c4_read_behaviour {T : Type} [Inhabited T] (w : Nat) (c : Channel T)
    (buf : List T) :
    ∃ c1 out, Reader.read w c buf
        = some (c1, out, min (c.pos.read_len w) buf.length) ∧
      min (c.pos.read_len w) buf.length ≤ c.pos.read_len w ∧
      c1.pos.read = wadd w c.pos.read (min (c.pos.read_len w) buf.length) ∧
      c1.pos.write = c.pos.write ∧ c1.pos.capacity = c.pos.capacity ∧
      c1.mem = c.mem ∧ out.length = buf.length ∧
      out.take (min (c.pos.read_len w) buf.length)
        = memReadSeq c.pos.capacity c.mem c.pos.read_offset
            (min (c.pos.read_len w) buf.length) ∧
      out.drop (min (c.pos.read_len w) buf.length)
        = buf.drop (min (c.pos.read_len w) buf.length) ∧
      (c.pos.read_len w = 0 → min (c.pos.read_len w) buf.length = 0) := by
  set n := min (c.pos.read_len w) buf.length with hn
  refine ⟨_, _, Reader.read_some w c buf, Nat.min_le_left _ _, rfl, rfl, rfl, rfl,
    ?_, ?_, ?_, ?_⟩
  · rw [List.length_append, length_memReadSeq, List.length_drop]
    have := Nat.min_le_right (c.pos.read_len w) buf.length
    omega
  · exact List.take_left' (length_memReadSeq _ _ _ _)
  · exact List.drop_left' (length_memReadSeq _ _ _ _)
  · intro h0
    rw [hn, h0]
    simp

/-- C2 counterexample: on a capacity-2 channel, the state reached by
`write [5]` has `write_len = 1 ≥ K = 1`, yet writing `[7]` and then
`read_exact`-ing one element returns `[5]` — the oldest unread element,
not the sequence just written. -/
theorem c2_roundtrip_counterexample :
    Channel.run 4 (Channel.init Nat 2) [Op.write [5]]
        = some ⟨⟨1, 0, 2⟩, [5, 0]⟩ ∧
    1 ≤ Position.write_len 4 ⟨1, 0, 2⟩ ∧
    Writer.write 4 ⟨⟨1, 0, 2⟩, [5, 0]⟩ [7] = some (⟨⟨2, 0, 2⟩, [5, 7]⟩, 1) ∧
    Reader.read_exact 4 ⟨⟨2, 0, 2⟩, [5, 7]⟩ [0]
        = some (⟨⟨2, 1, 2⟩, [5, 7]⟩, [5], 1) ∧
    ([5] : List Nat) ≠ [7] := by decide

/-- C2 amended: from any reachable state with `read_len() = 0` (no pending
unread data, hence `write_len() = capacity`), writing `K ≤ capacity` elements
and then `read_exact`-ing `K` elements returns exactly the written sequence
in order, including when the window crosses the physical end of the
single-copy region. -/
theorem c2_roundtrip_amended {T : Type} [Inhabited T] (w cap : Nat)
    (ops : List (Op T)) (c : Channel T) (buf : List T) (hlt : cap < 2 ^ w)
    (h : Channel.run w (Channel.init T cap) ops = some c)
    (hempty : c.pos.read_len w = 0) (hK : buf.length ≤ cap) :
    ∃ c1 c2 out,
      Writer.write w c buf = some (c1, buf.length) ∧
      Reader.read_exact w c1 (List.replicate buf.length (default : T))
        = some (c2, out, buf.length) ∧
      out = buf := by
  obtain ⟨hc, hw, hr, hrl, hm⟩ := run_inv w cap ops _ c hlt (init_inv T w cap) h
  have hwr : c.pos.write = c.pos.read := wsub_eq_zero w _ _ hw hr hempty
  have hwl := write_len_eq_sub w cap c.pos hlt hc hrl
  have hwlcap : c.pos.write_len w = cap := by rw [hwl, hempty]; omega
  have hK2 : buf.length ≤ c.pos.write_len w := by rw [hwlcap]; exact hK
  have hmin : min (c.pos.write_len w) buf.length = buf.length :=
    Nat.min_eq_right hK2
  have hws := Writer.write_some w c buf
  rw [hmin, List.take_length] at hws
  obtain ⟨hrl1, _⟩ := read_len_after_produce w cap buf.length c.pos hlt hc hrl hK2
  rw [hempty, Nat.zero_add] at hrl1
  have hoff : Position.read_offset
        ⟨wadd w c.pos.write buf.length, c.pos.read, c.pos.capacity⟩
      = c.pos.write_offset := by
    show c.pos.read &&& (c.pos.capacity - 1) = c.pos.write &&& (c.pos.capacity - 1)
    rw [hwr]
  have hmrs : memReadSeq c.pos.capacity
      (memWriteSeq c.pos.capacity c.mem c.pos.write_offset buf)
      c.pos.write_offset buf.length = buf :=
    memReadSeq_memWriteSeq c.pos.capacity c.mem c.pos.write_offset buf
      (by rw [hc]; exact hK) (by rw [hc, hm])
  have hdrop : (List.replicate buf.length (default : T)).drop buf.length = [] := by
    simp
  have hre : Reader.read_exact w
      (⟨⟨wadd w c.pos.write buf.length, c.pos.read, c.pos.capacity⟩,
        memWriteSeq c.pos.capacity c.mem c.pos.write_offset buf⟩ : Channel T)
      (List.replicate buf.length (default : T))
      = some (⟨⟨wadd w c.pos.write buf.length, wadd w c.pos.read buf.length,
            c.pos.capacity⟩,
          memWriteSeq c.pos.capacity c.mem c.pos.write_offset buf⟩,
        buf, buf.length) := by
    unfold Reader.read_exact
    rw [if_pos (by rw [List.length_replicate]; exact le_of_eq hrl1.symm)]
    rw [Reader.read_some]
    dsimp only
    rw [List.length_replicate, hrl1, Nat.min_self, hoff, hmrs, hdrop,
      List.append_nil]
  exact ⟨_, _, buf, hws, hre, rfl⟩

/-- Witness for the amended round-trip theorem: empty reachable state with
both offsets at 1 (cursors at 3), capacity 2; writing `[8, 9]` makes the
window cross the physical end, yet `read_exact` returns `[8, 9]`. -/
theorem c2_roundtrip_amended_witness :
    ∃ c1 c2 out,
      Writer.write 4 (⟨⟨3, 3, 2⟩, [7, 6]⟩ : Channel Nat) [8, 9]
        = some (c1, 2) ∧
      Reader.read_exact 4 c1 (List.replicate 2 (0 : Nat))
        = some (c2, out, 2) ∧
      out = [8, 9] :=
  c2_roundtrip_amended 4 2
    [Op.write [5, 6], Op.read 2, Op.write [7], Op.read 1]
    ⟨⟨3, 3, 2⟩, [7, 6]⟩ [8, 9] (by decide) (by decide) (by decide) (by decide)

/-- C5: `read_exact` gets past its wait loop exactly when
`read_len() ≥ buf.len()` holds (else it is still blocked, modelled `none`);
once past, it behaves exactly as `read`, whose returned count is then the
full `buf.len()` — never a short read. -/
theorem c5_read_exact_blocking {T : Type} [Inhabited T] (w : Nat)
    (c : Channel T) (buf : List T) :
    ((Reader.read_exact w c buf).isSome ↔ buf.length ≤ c.pos.read_len w) ∧
    (buf.length ≤ c.pos.read_len w →
      Reader.read_exact w c buf = Reader.read w c buf ∧
      ∃ c1 out, Reader.read w c buf = some (c1, out, buf.length)) := by
  constructor
  · constructor
    · intro hs
      by_contra hlt2
      unfold Reader.read_exact at hs
      rw [if_neg hlt2] at hs
      simp at hs
    · intro hge
      unfold Reader.read_exact
      rw [if_pos hge, Reader.read_some]
      rfl
  · intro hge
    have hmin : min (c.pos.read_len w) buf.length = buf.length :=
      Nat.min_eq_right hge
    constructor
    · unfold Reader.read_exact
      rw [if_pos hge]
    · refine ⟨⟨{ c.pos with
          read := wadd w c.pos.read (min (c.pos.read_len w) buf.length) }, c.mem⟩,
        memReadSeq c.pos.capacity c.mem c.pos.read_offset
            (min (c.pos.read_len w) buf.length)
          ++ buf.drop (min (c.pos.read_len w) buf.length), ?_⟩
      rw [Reader.read_some, hmin]

/-- Witness for the blocking theorem: two readable elements, one requested. -/
theorem c5_read_exact_blocking_witness :
    ((Reader.read_exact 4 (⟨⟨2, 0, 2⟩, [5, 7]⟩ : Channel Nat) [0]).isSome
        ↔ 1 ≤ Position.read_len 4 ⟨2, 0, 2⟩) ∧
    (1 ≤ Position.read_len 4 ⟨2, 0, 2⟩ →
      Reader.read_exact 4 (⟨⟨2, 0, 2⟩, [5, 7]⟩ : Channel Nat) [0]
          = Reader.read 4 ⟨⟨2, 0, 2⟩, [5, 7]⟩ [0] ∧
      ∃ c1 out, Reader.read 4 (⟨⟨2, 0, 2⟩, [5, 7]⟩ : Channel Nat) [0]
          = some (c1, out, 1)) :=
  c5_read_exact_blocking 4 ⟨⟨2, 0, 2⟩, [5, 7]⟩ [0]

/-- Witness for the advance contract at a fresh capacity-2 position. -/
theorem c6_advance_contract_witness :
    (Position.produce 4 ⟨0, 0, 2⟩ 1 = some ⟨wadd 4 0 1, 0, 2⟩
        ↔ 1 ≤ Position.write_len 4 ⟨0, 0, 2⟩) ∧
    (Position.produce 4 ⟨0, 0, 2⟩ 1 = none
        ↔ Position.write_len 4 ⟨0, 0, 2⟩ < 1) ∧
    (Position.consume 4 ⟨0, 0, 2⟩ 1 = some ⟨0, wadd 4 0 1, 2⟩
        ↔ 1 ≤ Position.read_len 4 ⟨0, 0, 2⟩) ∧
    (Position.consume 4 ⟨0, 0, 2⟩ 1 = none
        ↔ Position.read_len 4 ⟨0, 0, 2⟩ < 1) :=
  c6_advance_contract 4 1 ⟨0, 0, 2⟩

/-- C7 counterexample: with a host that refuses the double mapping, channel
construction ends in a panic (the `.unwrap()`); the `AllocationError` is not
returned to the caller of `new`. -/
theorem c7_alloc_propagation_counterexample :
    vmnew Nat ⟨4096, fun _ => false⟩ 4 1000 = NewResult.panicked := rfl

/-- C7 amended: `SharedMemory::new` surfaces the refused double mapping as the
`Allocate` error — the sole error kind — but `vmcircbuffer::new` unwraps the
result and panics on allocation failure instead of propagating it. -/
theorem c7_alloc_error_amended (env : HostEnv) (es len : Nat)
    (hfail : env.doublemap_ok (round_up_to_multiple (len * es) env.pagesize)
      = false) :
    SharedMemory.new env es len
      = .error (.allocate "doublemap() returned null pointer") ∧
    (∀ (T : Type) [Inhabited T] (cap : Nat),
      next_power_of_two cap = len → vmnew T env es cap = .panicked) := by
  have h1 : SharedMemory.new env es len
      = .error (.allocate "doublemap() returned null pointer") := by
    simp only [SharedMemory.new, hfail]
    rfl
  refine ⟨h1, ?_⟩
  intro T _ cap hcap
  simp only [vmnew, hcap, h1]

/-- Witness for the amended allocation-failure theorem: page size 4096,
4-byte elements, effective capacity 1024, host refusing every mapping. -/
theorem c7_alloc_error_amended_witness :
    SharedMemory.new ⟨4096, fun _ => false⟩ 4 1024
      = .error (.allocate "doublemap() returned null pointer") ∧
    (∀ (T : Type) [Inhabited T] (cap : Nat),
      next_power_of_two cap = 1024 →
      vmnew T ⟨4096, fun _ => false⟩ 4 cap = .panicked) :=
  c7_alloc_error_amended ⟨4096, fun _ => false⟩ 4 1024 rfl

/-- C8: construction uses as effective capacity the smallest power of two
greater than or equal to the request; requesting 1000 yields 1024 and
requesting 1024 yields 1024 unchanged. -/
theorem c8_capacity_coercion {T : Type} [Inhabited T] (env : HostEnv)
    (es cap : Nat) (c : Channel T) (h : vmnew T env es cap = .ok c) :
    c.pos.capacity = next_power_of_two cap ∧
    (∃ k, c.pos.capacity = 2 ^ k) ∧ cap ≤ c.pos.capacity ∧
    (∀ j, cap ≤ 2 ^ j → c.pos.capacity ≤ 2 ^ j) ∧
    next_power_of_two 1000 = 1024 ∧ next_power_of_two 1024 = 1024 := by
  have hshape : c.pos.capacity = next_power_of_two cap := by
    simp only [vmnew] at h
    split at h
    · cases h
    · split at h
      · cases h
      · rename_i p hp
        injection h with h
        subst h
        simp only [Position.new] at hp
        split at hp
        · injection hp with hp
          subst hp
          rfl
        · cases hp
  obtain ⟨h1, h2, h3⟩ := next_power_of_two_spec cap
  exact ⟨hshape, by rw [hshape]; exact h1, by rw [hshape]; exact h2,
    fun j hj => by rw [hshape]; exact h3 j hj, rfl, rfl⟩

/-- Witness for the capacity coercion: requesting 1000 of a 4-byte element
type yields the capacity-1024 channel. -/
theorem c8_capacity_coercion_witness :
    (Channel.init Nat 1024).pos.capacity = next_power_of_two 1000 ∧
    (∃ k, (Channel.init Nat 1024).pos.capacity = 2 ^ k) ∧
    1000 ≤ (Channel.init Nat 1024).pos.capacity ∧
    (∀ j, 1000 ≤ 2 ^ j → (Channel.init Nat 1024).pos.capacity ≤ 2 ^ j) ∧
    next_power_of_two 1000 = 1024 ∧ next_power_of_two 1024 = 1024 :=
  c8_capacity_coercion ⟨4096, fun _ => true⟩ 4 1000 (Channel.init Nat 1024) rfl

/-- C9: at element size 4, `len = 512`, page size 4096 the allocation
reserves `round_up(2048, 4096) = 4096` bytes (doubled virtually), but the
destructor passes `len * size_of = 2048` bytes to the unmap call — not the
page-rounded reserved size the claim asserts. -/
theorem c9_unmap_size_at_failing_input :
    SharedMemory.new ⟨4096, fun _ => true⟩ 4 512 = .ok ⟨512, 4096⟩ ∧
    SharedMemory.drop_size 4 ⟨512, 4096⟩ = 2048 ∧
    round_up_to_multiple (512 * 4) 4096 = 4096 ∧
    SharedMemory.drop_size 4 ⟨512, 4096⟩ ≠ 4096 :=
  ⟨rfl, rfl, rfl, by decide⟩

/-- C10: in every reachable state `write_offset() + write_len() ≤ 2*capacity`
and `read_offset() + read_len() ≤ 2*capacity`, so every window handed out
lies inside the doubled mapped region. -/
theorem c10_window_in_region {T : Type} [Inhabited T] (w cap k : Nat)
    (ops : List (Op T)) (c : Channel T) (hcap : cap = 2 ^ k) (hlt : cap < 2 ^ w)
    (h : Channel.run w (Channel.init T cap) ops = some c) :
    c.pos.write_offset + c.pos.write_len w ≤ 2 * cap ∧
    c.pos.read_offset + c.pos.read_len w ≤ 2 * cap := by
  obtain ⟨hc, hw, hr, hrl, hm⟩ := run_inv w cap ops _ c hlt (init_inv T w cap) h
  have hwl := write_len_eq_sub w cap c.pos hlt hc hrl
  have hwo : c.pos.write_offset < cap := by
    unfold Position.write_offset
    rw [hc, hcap, mask_eq_mod]
    exact Nat.mod_lt _ (Nat.two_pow_pos k)
  have hro : c.pos.read_offset < cap := by
    unfold Position.read_offset
    rw [hc, hcap, mask_eq_mod]
    exact Nat.mod_lt _ (Nat.two_pow_pos k)
  omega

/-- Witness for the window bound after one produce on a capacity-2 channel. -/
theorem c10_window_in_region_witness :
    Position.write_offset ⟨1, 0, 2⟩ + Position.write_len 4 ⟨1, 0, 2⟩ ≤ 2 * 2 ∧
    Position.read_offset ⟨1, 0, 2⟩ + Position.read_len 4 ⟨1, 0, 2⟩ ≤ 2 * 2 :=
  c10_window_in_region 4 2 1 [Op.produce 1] ⟨⟨1, 0, 2⟩, [0, 0]⟩
    (by decide) (by decide) (by decide)

end VMCirc
